import Mathlib

/-!
Verification of the evolution-strategies training core in `es/legacy/train.py`.

The numeric code is embedded shallowly over `ℝ`:

* pseudo-random draws made after `torch.manual_seed(seed)` are modelled by an
  abstract deterministic stream `gen : ℕ → ℕ → ℝ` (`gen seed k` is the k-th
  scalar drawn after seeding with `seed`); seed-determinism of the torch RNG
  is exactly what this models;
* a model's trainable tensors are a list of flattened tensors
  (`List (List ℝ)`), with `sizes : List ℕ` their fixed flattened shapes;
* python float arithmetic is modelled by exact real arithmetic;
* the NaN/Inf assertion structure of `compute_gradients` is modelled over a
  small inductive type of IEEE value classes, since in exact arithmetic no
  NaN/Inf exists.
-/

namespace ESRL

/-- Element access into a list of flattened tensors: tensor `l`, element `e`. -/
def tget (m : List (List ℝ)) (l e : ℕ) : ℝ :=
  (m.getD l []).getD e 0

/-- The setup a single noise draw depends on: the seeded torch stream `gen`,
the fixed flattened tensor shapes `sizes`, the sensitivities currently stored
in `param.grad` (`sens`), and the `args.safe_mutation` flag. -/
structure NoiseSetup where
  gen : ℕ → ℕ → ℝ
  sizes : List ℕ
  sens : List (List ℝ)
  safe : Bool

/-- Mean of a list of reals, as used by `torch.Tensor.std`. -/
noncomputable def sampleMean (xs : List ℝ) : ℝ :=
  xs.sum / xs.length

/-- Unbiased sample standard deviation, the default of `torch.Tensor.std`
(`eps.std()` in `get_pertubation`). -/
noncomputable def sampleStd (xs : List ℝ) : ℝ :=
  Real.sqrt ((xs.map (fun x => (x - sampleMean xs) ^ 2)).sum / ((xs.length : ℝ) - 1))

/-- Embeds `get_pertubation(args, param)` from `es/legacy/train.py` for the
parameter tensor at position `l`, drawn after `torch.manual_seed(seed)`:
`eps.normal_(0,1)` produces the next `sizes[l]` values of the seeded stream
(tensors are drawn in layer order, so layer `l` starts at stream offset
`(sizes.take l).sum`); under `args.safe_mutation` the draw is divided
elementwise by the stored sensitivities (`param.grad.data`) and rescaled by
its own standard deviation. -/
noncomputable def get_pertubation (ns : NoiseSetup) (seed l : ℕ) : List ℝ :=
  let raw := (List.range (ns.sizes.getD l 0)).map
    (fun e => ns.gen seed ((ns.sizes.take l).sum + e))
  if ns.safe then
    let scaled := List.zipWith (fun a b => a / b) raw (ns.sens.getD l [])
    scaled.map (fun x => x / sampleStd scaled)
  else raw

/-- Embeds `perturb_model(args, parent_model, random_seed, env)`: both returned
models are copies of the parent; for every tensor one single noise draw `eps`
is made from the seeded stream and `param1.data += sigma*eps`,
`param2.data -= sigma*eps` are applied with that same `eps`. -/
noncomputable def perturb_model (ns : NoiseSetup) (sigma : ℝ)
    (parent : List (List ℝ)) (seed : ℕ) : List (List ℝ) × List (List ℝ) :=
  (parent.mapIdx (fun l p => List.zipWith (fun x e => x + sigma * e) p (get_pertubation ns seed l)),
   parent.mapIdx (fun l p => List.zipWith (fun x e => x - sigma * e) p (get_pertubation ns seed l)))

/-- Index list sorting `returns` descendingly, embedding
`np.argsort(-returns)` in `fitness_shaping` (the permutation property and
descending order are what the code relies on). -/
noncomputable def argsortDesc (returns : List ℝ) : List ℕ :=
  (List.range returns.length).mergeSort (fun i j => decide (returns.getD j 0 ≤ returns.getD i 0))

/-- Rank utility `np.max([0, np.log(n/2+1)-np.log(k+1)])` of `fitness_shaping`. -/
noncomputable def utility (n k : ℕ) : ℝ :=
  max 0 (Real.log ((n : ℝ) / 2 + 1) - Real.log ((k : ℝ) + 1))

/-- Embeds `fitness_shaping(returns)`: the position `sorted_indices[k]` gets
utility of rank `k`, i.e. position `i` gets the utility of the rank of `i` in
the descending index sort; afterwards `u/np.sum(u) - 1/n`. -/
noncomputable def fitness_shaping (returns : List ℝ) : List ℝ :=
  let n := returns.length
  let sorted := argsortDesc returns
  let u := (List.range n).map (fun i => utility n (sorted.indexOf i))
  u.map (fun x => x / u.sum - 1 / (n : ℝ))

/-- Shaped return of sample `i`, `shaped_returns[i]` in `compute_gradients`. -/
noncomputable def shapedReturn (returns : List ℝ) (i : ℕ) : ℝ :=
  (fitness_shaping returns).getD i 0

/-- Antithetic multiplier `-1 if is_anti_list[i] else 1` in `compute_gradients`. -/
def antiMult (is_anti_list : List Bool) (i : ℕ) : ℝ :=
  if is_anti_list.getD i false then -1 else 1

/-- One summand of the weight-gradient accumulation in `compute_gradients`:
`1/(args.agents*args.sigma**2) * (retrn * multiplier * eps)` for sample `i`
and tensor `l`. -/
noncomputable def weightGradTerm (ns : NoiseSetup) (agents : ℕ) (sigma : ℝ)
    (returns : List ℝ) (seeds : List ℕ) (is_anti_list : List Bool) (i l : ℕ) : List ℝ :=
  (get_pertubation ns (seeds.getD i 0) l).map
    (fun e => 1 / ((agents : ℝ) * sigma ^ 2) * (shapedReturn returns i * antiMult is_anti_list i * e))

/-- Embeds the weight-gradient accumulation loop of `compute_gradients`:
`weight_gradients` starts as `torch.zeros(param.data.size())` per tensor and,
for each sample `i` in order, each tensor accumulates `weightGradTerm`. -/
noncomputable def weightGradients (ns : NoiseSetup) (agents : ℕ) (sigma : ℝ)
    (returns : List ℝ) (seeds : List ℕ) (is_anti_list : List Bool) : List (List ℝ) :=
  (List.range agents).foldl
    (fun acc i => acc.mapIdx
      (fun l v => List.zipWith (fun a b => a + b) v
        (weightGradTerm ns agents sigma returns seeds is_anti_list i l)))
    (ns.sizes.map (fun s => List.replicate s 0))

/-- Embeds `param.grad.data = - weight_gradients[layer]` of `compute_gradients`. -/
noncomputable def storedWeightGradients (ns : NoiseSetup) (agents : ℕ) (sigma : ℝ)
    (returns : List ℝ) (seeds : List ℕ) (is_anti_list : List Bool) : List (List ℝ) :=
  (weightGradients ns agents sigma returns seeds is_anti_list).map (fun t => t.map (fun x => -x))

/-- Embeds the `beta_gradient` accumulation of `compute_gradients` under
`args.optimize_sigma`: for each sample `i` and each parameter tensor `l` it
adds `1/(args.agents * args.beta.exp()) * retrn * (eps.pow(2).sum() - 1)`,
with the same per-(sample, tensor) noise `eps` as the weight gradient.  Note
the `- 1` is inside the loop over tensors, so it is applied once per tensor
per sample. -/
noncomputable def betaGradient (ns : NoiseSetup) (agents : ℕ) (beta : ℝ)
    (returns : List ℝ) (seeds : List ℕ) : ℝ :=
  (List.range agents).foldl
    (fun acc i =>
      (List.range ns.sizes.length).foldl
        (fun a l => a + 1 / ((agents : ℝ) * Real.exp beta) * shapedReturn returns i *
          (((get_pertubation ns (seeds.getD i 0) l).map (fun x => x ^ 2)).sum - 1))
        acc)
    0

/-- Embeds `args.beta.grad = - beta_gradient` of `compute_gradients`. -/
noncomputable def storedBetaGradient (ns : NoiseSetup) (agents : ℕ) (beta : ℝ)
    (returns : List ℝ) (seeds : List ℕ) : ℝ :=
  -(betaGradient ns agents beta returns seeds)

/-- The gradient formula of the specification, stated with the noise model of
this file: `grad_logvar = (1/(N·E[σ²])) · Σ_i weight_i · (‖ε_i‖² − 1)`, where
`E[σ²]` is `args.beta.exp()` and `‖ε_i‖²` is the squared norm of sample `i`'s
full noise vector over all tensors, so the `- 1` occurs once per sample. -/
noncomputable def specBetaGradient (ns : NoiseSetup) (agents : ℕ) (beta : ℝ)
    (returns : List ℝ) (seeds : List ℕ) : ℝ :=
  1 / ((agents : ℝ) * Real.exp beta) *
    ((List.range agents).map (fun i => shapedReturn returns i *
      (((List.range ns.sizes.length).map
        (fun l => ((get_pertubation ns (seeds.getD i 0) l).map (fun x => x ^ 2)).sum)).sum - 1))).sum

/-- Maximum entry of a tensor, embedding `Tensor.max()` / `np.max` on a
nonempty collection (the empty case never occurs in the code paths modelled). -/
noncomputable def npMax : List ℝ → ℝ
  | [] => 0
  | x :: xs => xs.foldl max x

/-- Embeds `compute_sensitivities(args, parent_model, inputs)` with its active
flags (`do_square`, `do_square_root`, `do_normalize`, `do_numerical` are
`True`, `do_abs` is `False`).  The per-output-unit parameter gradients
produced by the backward passes are the oracle `g idx pid e` (backpropagation
itself is the external autograd collaborator).  For each tensor `pid`: sum the
squared gradients over the `n_outputs` output units, take the square root,
divide by the tensor's maximum, then apply the two in-place numerical passes
(`x < 1e-5` becomes `1`, then `x > 1e5` becomes `1e5`). -/
noncomputable def compute_sensitivities (n_outputs : ℕ) (sizes : List ℕ)
    (g : ℕ → ℕ → ℕ → ℝ) : List (List ℝ) :=
  (List.range sizes.length).map (fun pid =>
    let sens := (List.range (sizes.getD pid 0)).map (fun e =>
      Real.sqrt (((List.range n_outputs).map (fun idx => (g idx pid e) ^ 2)).sum))
    let normed := sens.map (fun x => x / npMax sens)
    (normed.map (fun x => if x < 1e-5 then 1 else x)).map (fun x => if x > 1e5 then 1e5 else x))

/-- IEEE-754 value classes, for modelling the NaN/Inf assertion structure of
`compute_gradients` (exact real arithmetic has no NaN/Inf, so the assertions
are stated over the class of each stored value). -/
inductive FloatVal where
  | finite (q : ℚ)
  | nan
  | posInf
  | negInf
deriving DecidableEq

/-- Mirrors `np.isnan` on a value class. -/
def FloatVal.isNaN : FloatVal → Bool
  | .nan => true
  | _ => false

/-- Mirrors `np.isinf` on a value class (true for both infinities). -/
def FloatVal.isInf : FloatVal → Bool
  | .posInf => true
  | .negInf => true
  | _ => false

/-- Negation on value classes, mirroring the sign flip the code applies when
storing the gradients (`param.grad.data = - weight_gradients[layer]`,
`args.beta.grad = - beta_gradient`). -/
def FloatVal.neg : FloatVal → FloatVal
  | .finite q => .finite (-q)
  | .nan => .nan
  | .posInf => .negInf
  | .negInf => .posInf

/-- Embeds the assertion block at the end of `compute_gradients`: for every
parameter tensor the stored gradient `- weight_gradients[layer]` is asserted
to contain no NaN and no Inf; if `args.optimize_sigma` the stored
`args.beta.grad = - beta_gradient` is asserted to contain no NaN (there is no
Inf assertion on the beta gradient).  Returns `true` iff every assertion
passes. -/
def compute_gradients_checks (weight_gradients : List (List FloatVal))
    (optimize_sigma : Bool) (beta_gradient : FloatVal) : Bool :=
  (weight_gradients.all (fun t =>
    !(t.map FloatVal.neg).any FloatVal.isNaN && !(t.map FloatVal.neg).any FloatVal.isInf))
  && (!optimize_sigma || !(FloatVal.neg beta_gradient).isNaN)

/-- The fields of the `stats` dictionary that the resume branch of
`train_loop` reads. -/
structure TrainStats where
  generations : List ℕ
  episodes : List ℕ
  observations : List ℕ
  return_unp : List ℝ
  sigma : List ℝ

/-- The iteration state initialized at the top of `train_loop`, with the
model / optimizer snapshot types kept opaque. -/
structure InitState (M O : Type) where
  n_episodes : ℕ
  n_observations : ℕ
  start_generation : ℕ
  sigma : ℝ
  max_unperturbed_return : ℝ
  best_model_stdct : Option M
  best_optimizer_stdct : Option O

/-- Embeds the initialization of `train_loop` (its `stats is None` branch and
its resume branch): on resume, the episode and observation counters and the
sigma are taken from the last entries of the stored statistics, the start
generation is the last stored generation plus one, and the best-return
watermark is `np.max(stats['return_unp'])`.  In both branches the subsequent
lines `best_model_stdct = None` and `best_optimizer_stdct = None` run, so the
best-so-far snapshot starts out empty. -/
noncomputable def trainInit {M O : Type} (sigma0 : ℝ) :
    Option TrainStats → InitState M O
  | none =>
    ⟨0, 0, 0, sigma0, -1e8, none, none⟩
  | some st =>
    ⟨st.episodes.getLastD 0, st.observations.getLastD 0,
     st.generations.getLastD 0 + 1, st.sigma.getLastD 0,
     npMax st.return_unp, none, none⟩

/-- Embeds the sigma update of `train_loop` under `hasattr(args, 'beta')`:
`new_sigma = (0.5*args.beta.exp()).sqrt()` followed by the step clamp against
the previous sigma. -/
noncomputable def update_sigma (sigma beta : ℝ) : ℝ :=
  let new_sigma := Real.sqrt (0.5 * Real.exp beta)
  if new_sigma > sigma * 1.2 then sigma * 1.2
  else if new_sigma < sigma * 0.8 then sigma * 0.8
  else new_sigma

/-- Embeds the full sigma/beta step of `train_loop`: the clamped sigma update
followed by `args.beta.data = torch.Tensor([np.log(2*args.sigma**2)])`. -/
noncomputable def update_sigma_beta (sigma beta : ℝ) : ℝ × ℝ :=
  let s2 := update_sigma sigma beta
  (s2, Real.log (2 * s2 ^ 2))

/-- Embeds the worker dispatch loop of `train_loop`: `models.pop()` and
`seeds.pop()` take from the tails of the two stacks while `is_negative`
toggles, starting at `True`.  Each popped triple is what one worker process
receives. -/
def popDispatch {M : Type} : List M → List ℕ → Bool → List (ℕ × Bool × M)
  | [], _, _ => []
  | _ :: _, [], _ => []
  | m :: ms, s :: ss, neg => (s, neg, m) :: popDispatch ms ss (!neg)

/-- Embeds the perturbation generation and dispatch of one generation of
`train_loop`: for `j in range(agents/2)` a seed `draws j` is drawn (from
`np.random.randint(2**30)`, modelled as an oracle), appended twice to `seeds`,
and the two antithetic models `pp (draws j)` are appended to `models`; the
stacks are then drained by `popDispatch` with `is_negative` starting `True`. -/
def generateDispatch {M : Type} (draws : ℕ → ℕ) (half : ℕ) (pp : ℕ → M × M) :
    List (ℕ × Bool × M) :=
  let seeds := (List.range half).flatMap (fun j => [draws j, draws j])
  let models := (List.range half).flatMap (fun j => [(pp (draws j)).1, (pp (draws j)).2])
  popDispatch models.reverse seeds.reverse true

/-! Helper lemmas about list access, used throughout. -/

theorem getD_zipWith (f : ℝ → ℝ → ℝ) :
    ∀ (as bs : List ℝ) (e : ℕ), e < (List.zipWith f as bs).length →
      (List.zipWith f as bs).getD e 0 = f (as.getD e 0) (bs.getD e 0) := by
  intro as
  induction as with
  | nil => intro bs e h; simp at h
  | cons a as ih =>
    intro bs e h
    cases bs with
    | nil => simp at h
    | cons b bs =>
      cases e with
      | zero => rfl
      | succ e =>
        simp only [List.zipWith_cons_cons, List.length_cons] at h
        simpa using ih bs e (by omega)

theorem getD_map {α β : Type} (f : α → β) (d : α) (d2 : β) :
    ∀ (as : List α) (e : ℕ), e < as.length → (as.map f).getD e d2 = f (as.getD e d) := by
  intro as
  induction as with
  | nil => intro e h; simp at h
  | cons a as ih =>
    intro e h
    cases e with
    | zero => rfl
    | succ e => simpa using ih e (by simpa using h)

theorem getD_mapIdx {α β : Type} (d : α) (d2 : β) :
    ∀ (as : List α) (f : ℕ → α → β) (e : ℕ), e < as.length →
      (as.mapIdx f).getD e d2 = f e (as.getD e d) := by
  intro as
  induction as with
  | nil => intro f e h; simp at h
  | cons a as ih =>
    intro f e h
    rw [List.mapIdx_cons]
    cases e with
    | zero => rfl
    | succ e => simpa using ih (fun i => f (i + 1)) e (by simpa using h)

theorem getD_replicate (n e : ℕ) : (List.replicate n (0 : ℝ)).getD e 0 = 0 := by
  induction n generalizing e with
  | zero => rfl
  | succ n ih =>
    cases e with
    | zero => rfl
    | succ e => rw [List.replicate_succ, List.getD_cons_succ]; exact ih e

theorem sum_map_range (f : ℕ → ℝ) (n : ℕ) :
    ((List.range n).map f).sum = ∑ i ∈ Finset.range n, f i := by
  induction n with
  | zero => rfl
  | succ n ih => rw [List.range_succ]; simp [ih, Finset.sum_range_succ]

theorem foldl_add_eq (g : ℕ → ℝ) :
    ∀ (is : List ℕ) (c : ℝ), is.foldl (fun a i => a + g i) c = c + (is.map g).sum := by
  intro is
  induction is with
  | nil => intro c; simp
  | cons i is ih => intro c; simp [ih, add_assoc]

/-! Claim C4 — the sigma controller. -/

/-- C4: after the parameter updater has produced `beta`, the sigma controller
sets the new sigma to `sqrt(0.5*exp(beta))` when that value lies in
`[0.8*sigma, 1.2*sigma]`, to exactly `1.2*sigma` when it is above, and to
exactly `0.8*sigma` when it is below; consequently the updated sigma always
lies within a factor of `0.8` to `1.2` of the previous sigma. -/
theorem sigma_controller_clamp (sigma beta : ℝ) (h : 0 < sigma) :
    (Real.sqrt (0.5 * Real.exp beta) > sigma * 1.2 → update_sigma sigma beta = sigma * 1.2) ∧
    (Real.sqrt (0.5 * Real.exp beta) < sigma * 0.8 → update_sigma sigma beta = sigma * 0.8) ∧
    (sigma * 0.8 ≤ Real.sqrt (0.5 * Real.exp beta) →
      Real.sqrt (0.5 * Real.exp beta) ≤ sigma * 1.2 →
      update_sigma sigma beta = Real.sqrt (0.5 * Real.exp beta)) ∧
    sigma * 0.8 ≤ update_sigma sigma beta ∧ update_sigma sigma beta ≤ sigma * 1.2 := by
  have h08 : sigma * 0.8 ≤ sigma * 1.2 := by nlinarith
  simp only [update_sigma]
  split_ifs with h1 h2
  · exact ⟨fun _ => rfl, fun hlt => by linarith, fun _ hle => by linarith, h08, le_refl _⟩
  · exact ⟨fun hgt => by linarith, fun _ => rfl, fun hge _ => by linarith, le_refl _, h08⟩
  · push_neg at h1 h2
    exact ⟨fun hgt => by linarith, fun hlt => by linarith, fun _ _ => rfl, h2, h1⟩

/-- Witness for C4 at `sigma = 1`, `beta = 0`. -/
theorem sigma_controller_clamp_witness :
    (0 : ℝ) < 1 ∧
    ((Real.sqrt (0.5 * Real.exp 0) > 1 * 1.2 → update_sigma 1 0 = 1 * 1.2) ∧
     (Real.sqrt (0.5 * Real.exp 0) < 1 * 0.8 → update_sigma 1 0 = 1 * 0.8) ∧
     ((1 : ℝ) * 0.8 ≤ Real.sqrt (0.5 * Real.exp 0) →
       Real.sqrt (0.5 * Real.exp 0) ≤ 1 * 1.2 →
       update_sigma 1 0 = Real.sqrt (0.5 * Real.exp 0)) ∧
     (1 : ℝ) * 0.8 ≤ update_sigma 1 0 ∧ update_sigma 1 0 ≤ 1 * 1.2) :=
  ⟨by norm_num, sigma_controller_clamp 1 0 (by norm_num)⟩

/-! Claim C10 — beta is re-synchronized to the clamped sigma. -/

/-- C10: at the end of the update step the log-variance parameter is reset to
`log(2*sigma^2)` computed from the (possibly clamped) new sigma, so the
invariant `beta = log(2*sigma^2)` holds when the next generation begins. -/
theorem beta_resynchronized (sigma beta : ℝ) :
    (update_sigma_beta sigma beta).2 = Real.log (2 * (update_sigma_beta sigma beta).1 ^ 2) ∧
    (update_sigma_beta sigma beta).1 = update_sigma sigma beta :=
  ⟨rfl, rfl⟩

/-! Claim C6 — resuming from restored statistics. -/

/-- C6 counterexample: resuming from a checkpointed statistics record does
not restore the best-so-far snapshot; `train_loop` sets
`best_model_stdct = None` and `best_optimizer_stdct = None` unconditionally
after the restore branch, so the resumed state carries no snapshot — exactly
as in the fresh-start state. -/
theorem resume_resets_best_counterexample :
    (trainInit 0.1 (some ⟨[10], [100], [1000], [5], [0.07]⟩) :
        InitState Unit Unit).best_model_stdct = none ∧
    (trainInit 0.1 (some ⟨[10], [100], [1000], [5], [0.07]⟩) :
        InitState Unit Unit).best_optimizer_stdct = none ∧
    (trainInit 0.1 (some ⟨[10], [100], [1000], [5], [0.07]⟩) :
        InitState Unit Unit).best_model_stdct =
      (trainInit 0.1 none : InitState Unit Unit).best_model_stdct :=
  ⟨rfl, rfl, rfl⟩

/-- C6 amended: when `train_loop` is started from a restored stats record
whose last generation index is `g` and whose last recorded sigma is `s`, the
loop resumes at generation `g + 1`, the working sigma equals `s` exactly, and
the best-return watermark is restored as the maximum recorded unperturbed
return — but the best-so-far model/optimizer snapshot is reset to empty, not
restored. -/
theorem resume_state (M O : Type) (sigma0 : ℝ) (st : TrainStats)
    (h1 : st.generations ≠ []) (h2 : st.sigma ≠ []) :
    (trainInit sigma0 (some st) : InitState M O).start_generation =
      st.generations.getLast h1 + 1 ∧
    (trainInit sigma0 (some st) : InitState M O).sigma = st.sigma.getLast h2 ∧
    (trainInit sigma0 (some st) : InitState M O).max_unperturbed_return =
      npMax st.return_unp ∧
    (trainInit sigma0 (some st) : InitState M O).best_model_stdct = none ∧
    (trainInit sigma0 (some st) : InitState M O).best_optimizer_stdct = none := by
  refine ⟨?_, ?_, rfl, rfl, rfl⟩
  · show st.generations.getLastD 0 + 1 = st.generations.getLast h1 + 1
    rw [List.getLastD_eq_getLast?, List.getLast?_eq_getLast _ h1]
    rfl
  · show st.sigma.getLastD 0 = st.sigma.getLast h2
    rw [List.getLastD_eq_getLast?, List.getLast?_eq_getLast _ h2]
    rfl

/-- Witness for C6 at a concrete restored record (last generation 10, last
sigma 0.07). -/
theorem resume_state_witness :
    ([10] : List ℕ) ≠ [] ∧ ([0.07] : List ℝ) ≠ [] ∧
    (trainInit 0.1 (some ⟨[10], [100], [1000], [5], [0.07]⟩) :
        InitState Unit Unit).start_generation = 11 ∧
    (trainInit 0.1 (some ⟨[10], [100], [1000], [5], [0.07]⟩) :
        InitState Unit Unit).sigma = 0.07 ∧
    (trainInit 0.1 (some ⟨[10], [100], [1000], [5], [0.07]⟩) :
        InitState Unit Unit).best_model_stdct = none := by
  have h1 : ([10] : List ℕ) ≠ [] := by simp
  have h2 : ([0.07] : List ℝ) ≠ [] := by simp
  obtain ⟨a, b, _, d, _⟩ :=
    resume_state Unit Unit 0.1 ⟨[10], [100], [1000], [5], [0.07]⟩ h1 h2
  exact ⟨h1, h2, by simpa using a, by simpa using b, d⟩

/-! Claim C9 — NaN/Inf assertions on the stored gradients. -/

theorem isNaN_neg (v : FloatVal) : (FloatVal.neg v).isNaN = v.isNaN := by
  cases v <;> rfl

theorem isInf_neg (v : FloatVal) : (FloatVal.neg v).isInf = v.isInf := by
  cases v <;> rfl

/-- C9 counterexample: a beta gradient that is infinite (but not NaN) passes
every assertion of `compute_gradients`, because the beta gradient is only
checked with `np.isnan` — there is no `np.isinf` assertion on it.  So an Inf
in the beta gradient does not make the function fail. -/
theorem beta_inf_unchecked_counterexample :
    compute_gradients_checks [[FloatVal.finite 0]] true FloatVal.posInf = true ∧
    FloatVal.isInf FloatVal.posInf = true := by
  exact ⟨rfl, rfl⟩

/-- C9 amended: the assertions of `compute_gradients` fail exactly when some
parameter-gradient entry is NaN or Inf, or (with sigma optimization enabled)
the beta gradient is NaN.  A NaN or Inf parameter gradient and a NaN beta
gradient are therefore always fatal, and nothing is silently zeroed or
clamped; an Inf beta gradient, however, is not caught. -/
theorem gradient_checks_pass_iff (wg : List (List FloatVal)) (os : Bool)
    (bg : FloatVal) :
    compute_gradients_checks wg os bg = true ↔
      ((∀ t ∈ wg, ∀ v ∈ t, v.isNaN = false ∧ v.isInf = false) ∧
        (os = true → bg.isNaN = false)) := by
  simp only [compute_gradients_checks, List.any_map, isNaN_neg, Bool.and_eq_true,
    List.all_eq_true, Bool.not_eq_eq_eq_not, Bool.not_true, List.any_eq_false,
    Function.comp_apply, Bool.not_eq_true, isInf_neg, Bool.or_eq_true]
  constructor
  · rintro ⟨h1, h2⟩
    exact ⟨fun t ht v hv => ⟨(h1 t ht).1 v hv, (h1 t ht).2 v hv⟩,
      fun hos => h2.resolve_left (by simp [hos])⟩
  · rintro ⟨h1, h2⟩
    refine ⟨fun t ht => ⟨fun v hv => (h1 t ht v hv).1, fun v hv => (h1 t ht v hv).2⟩, ?_⟩
    cases os with
    | false => exact Or.inl rfl
    | true => exact Or.inr (h2 rfl)

/-- C9 amended: the assertions of `compute_gradients` fail exactly when some
parameter-gradient entry is NaN or Inf, or (with sigma optimization enabled)
the beta gradient is NaN.  A NaN or Inf parameter gradient and a NaN beta
gradient are therefore always fatal, and nothing is silently zeroed or
clamped; an Inf beta gradient, however, is not caught. -/
theorem gradient_checks_characterization (wg : List (List FloatVal)) (os : Bool)
    (bg : FloatVal) :
    compute_gradients_checks wg os bg = false ↔
      ((∃ t ∈ wg, ∃ v ∈ t, v.isNaN = true ∨ v.isInf = true) ∨
        (os = true ∧ bg.isNaN = true)) := by
  rw [← not_iff_not, Bool.not_eq_false, gradient_checks_pass_iff]
  constructor
  · rintro ⟨h1, h2⟩ (⟨t, ht, v, hv, hbad⟩ | ⟨hos, hN⟩)
    · rcases hbad with hN | hI
      · rw [(h1 t ht v hv).1] at hN; exact Bool.false_ne_true hN
      · rw [(h1 t ht v hv).2] at hI; exact Bool.false_ne_true hI
    · rw [h2 hos] at hN; exact Bool.false_ne_true hN
  · intro hnot
    constructor
    · intro t ht v hv
      constructor
      · cases hN : v.isNaN with
        | false => rfl
        | true => exact absurd (Or.inl ⟨t, ht, v, hv, Or.inl hN⟩) hnot
      · cases hI : v.isInf with
        | false => rfl
        | true => exact absurd (Or.inl ⟨t, ht, v, hv, Or.inr hI⟩) hnot
    · intro hos
      cases hN : bg.isNaN with
      | false => rfl
      | true => exact absurd (Or.inr ⟨hos, hN⟩) hnot

/-! Claim C3 — antithetic perturbations mirror the parent exactly. -/

/-- C3: both models returned by `perturb_model` are built from the single
noise draw of the given seed, one adding `sigma*eps` and one subtracting it,
so every parameter element satisfies
`perturbed_plus + perturbed_minus = 2 * parent`. -/
theorem antithetic_mirror (ns : NoiseSetup) (sigma : ℝ) (parent : List (List ℝ))
    (seed l e : ℕ)
    (he : e < ((perturb_model ns sigma parent seed).1.getD l []).length) :
    tget (perturb_model ns sigma parent seed).1 l e +
      tget (perturb_model ns sigma parent seed).2 l e = 2 * tget parent l e := by
  by_cases hl : l < parent.length
  · have h1 : (perturb_model ns sigma parent seed).1.getD l [] =
        List.zipWith (fun x y => x + sigma * y) (parent.getD l [])
          (get_pertubation ns seed l) := by
      simp only [perturb_model]
      exact getD_mapIdx [] [] parent _ l hl
    have h2 : (perturb_model ns sigma parent seed).2.getD l [] =
        List.zipWith (fun x y => x - sigma * y) (parent.getD l [])
          (get_pertubation ns seed l) := by
      simp only [perturb_model]
      exact getD_mapIdx [] [] parent _ l hl
    rw [h1] at he
    have he2 : e < (List.zipWith (fun x y => x - sigma * y) (parent.getD l [])
        (get_pertubation ns seed l)).length := by
      simpa using (by simpa using he : e < (List.zipWith (fun x y => x + sigma * y)
        (parent.getD l []) (get_pertubation ns seed l)).length)
    simp only [tget, h1, h2]
    rw [getD_zipWith _ _ _ _ he, getD_zipWith _ _ _ _ he2]
    ring
  · exfalso
    have : (perturb_model ns sigma parent seed).1.getD l [] = [] := by
      apply List.getD_eq_default
      simpa [perturb_model] using Nat.le_of_not_lt hl
    rw [this] at he
    simp at he

/-- Witness for C3: a one-tensor parent `[[5]]`, unit noise, `sigma = 2`. -/
theorem antithetic_mirror_witness :
    0 < ((perturb_model ⟨fun _ _ => 1, [1], [], false⟩ 2 [[5]] 0).1.getD 0 []).length ∧
    tget (perturb_model ⟨fun _ _ => 1, [1], [], false⟩ 2 [[5]] 0).1 0 0 +
      tget (perturb_model ⟨fun _ _ => 1, [1], [], false⟩ 2 [[5]] 0).2 0 0 =
      2 * tget [[5]] 0 0 := by
  have hlen : 0 < ((perturb_model ⟨fun _ _ => 1, [1], [], false⟩ 2
      [[5]] 0).1.getD 0 []).length := by
    simp [perturb_model, get_pertubation]
  exact ⟨hlen, antithetic_mirror _ _ _ _ _ _ hlen⟩

/-! Claim C2 — fitness shaping produces zero-sum weights. -/

theorem argsortDesc_perm (returns : List ℝ) :
    List.Perm (argsortDesc returns) (List.range returns.length) :=
  List.mergeSort_perm ..

theorem argsortDesc_nodup (returns : List ℝ) : (argsortDesc returns).Nodup :=
  (argsortDesc_perm returns).nodup_iff.mpr (List.nodup_range _)

theorem argsortDesc_length (returns : List ℝ) :
    (argsortDesc returns).length = returns.length :=
  (argsortDesc_perm returns).length_eq.trans (List.length_range _)

theorem getD_of_lt {α : Type} (l : List α) (d : α) (e : ℕ) (h : e < l.length) :
    l.getD e d = l.get ⟨e, h⟩ := by
  induction l generalizing e with
  | nil => simp at h
  | cons a l ih =>
    cases e with
    | zero => rfl
    | succ e => simpa using ih e (by simpa using h)

/-- The utilities summed over positions equal the utilities summed over ranks:
the rank map `i ↦ sorted.indexOf i` is a bijection of `range n`. -/
theorem utility_rank_sum (returns : List ℝ) :
    (∑ i ∈ Finset.range returns.length,
      utility returns.length ((argsortDesc returns).indexOf i)) =
    ∑ k ∈ Finset.range returns.length, utility returns.length k := by
  have hperm := argsortDesc_perm returns
  have hnd := argsortDesc_nodup returns
  have hlen := argsortDesc_length returns
  refine Finset.sum_nbij' (fun i => (argsortDesc returns).indexOf i)
    (fun k => (argsortDesc returns).getD k 0) ?_ ?_ ?_ ?_ ?_
  · intro a ha
    dsimp only
    rw [Finset.mem_range] at ha ⊢
    rw [← hlen]
    exact List.indexOf_lt_length.mpr (hperm.mem_iff.mpr (List.mem_range.mpr ha))
  · intro k hk
    dsimp only
    rw [Finset.mem_range] at hk ⊢
    have hk2 : k < (argsortDesc returns).length := by omega
    rw [getD_of_lt _ _ _ hk2]
    have := hperm.mem_iff.mp (List.get_mem (argsortDesc returns) k hk2)
    simpa [List.mem_range] using this
  · intro a ha
    dsimp only
    rw [Finset.mem_range] at ha
    have hmem : a ∈ argsortDesc returns := hperm.mem_iff.mpr (List.mem_range.mpr ha)
    have hidx : (argsortDesc returns).indexOf a < (argsortDesc returns).length :=
      List.indexOf_lt_length.mpr hmem
    rw [getD_of_lt _ _ _ hidx]
    exact List.indexOf_get hidx
  · intro k hk
    dsimp only
    rw [Finset.mem_range] at hk
    have hk2 : k < (argsortDesc returns).length := by omega
    rw [getD_of_lt _ _ _ hk2]
    have := List.indexOf_getElem hnd k hk2
    simpa using this
  · intro a _
    rfl

theorem utility_nonneg (n k : ℕ) : 0 ≤ utility n k :=
  le_max_left 0 _

theorem utility_zero_pos (n : ℕ) (h2 : 2 ≤ n) : 0 < utility n 0 := by
  have hcast : (2 : ℝ) ≤ (n : ℝ) := by exact_mod_cast h2
  have hlog : 0 < Real.log ((n : ℝ) / 2 + 1) := Real.log_pos (by linarith)
  have : utility n 0 = max 0 (Real.log ((n : ℝ) / 2 + 1)) := by
    simp [utility, Real.log_one]
  rw [this]
  exact lt_max_iff.mpr (Or.inr hlog)

/-- Zero-sum property of `fitness_shaping`, used both for claim C2 and inside
the beta-gradient analysis of claim C5. -/
theorem fitness_shaping_sum (returns : List ℝ) (h2 : 2 ≤ returns.length) :
    (fitness_shaping returns).sum = 0 := by
  have hU : 0 < ∑ k ∈ Finset.range returns.length, utility returns.length k := by
    refine lt_of_lt_of_le (utility_zero_pos returns.length h2) ?_
    exact Finset.single_le_sum (fun k _ => utility_nonneg returns.length k)
      (Finset.mem_range.mpr (by omega))
  have hn0 : (returns.length : ℝ) ≠ 0 := by
    have : (2 : ℝ) ≤ (returns.length : ℝ) := by exact_mod_cast h2
    linarith
  have hlist : ((List.range returns.length).map
      (fun i => utility returns.length ((argsortDesc returns).indexOf i))).sum =
      ∑ k ∈ Finset.range returns.length, utility returns.length k := by
    rw [sum_map_range]
    exact utility_rank_sum returns
  simp only [fitness_shaping]
  rw [List.map_map, sum_map_range]
  simp only [Function.comp_apply]
  rw [hlist]
  rw [Finset.sum_sub_distrib, ← Finset.sum_div, utility_rank_sum, Finset.sum_const,
    Finset.card_range, nsmul_eq_mul]
  rw [div_self (ne_of_gt hU), mul_one_div, div_self hn0]
  ring

/-- C2: for every list of returns of length at least 2, the weights produced
by `fitness_shaping` (descending rank `k` gets utility
`max(0, log(N/2+1) - log(k+1))`, normalized by the utility sum, shifted by
`-1/N`) sum to exactly zero, regardless of the return values. -/
theorem fitness_shaping_sums_to_zero (returns : List ℝ) (h2 : 2 ≤ returns.length) :
    (fitness_shaping returns).sum = 0 :=
  fitness_shaping_sum returns h2

/-- Witness for C2 at the concrete return list `[1, 2]`. -/
theorem fitness_shaping_sums_to_zero_witness :
    2 ≤ ([1, 2] : List ℝ).length ∧ (fitness_shaping [1, 2]).sum = 0 :=
  ⟨by simp, fitness_shaping_sums_to_zero [1, 2] (by simp)⟩

/-! Claim C1 — the accumulated parameter gradient and its stored negation. -/

/-- Elementwise value of the tensor-accumulation loop pattern used by
`compute_gradients`: folding elementwise additions of `F i l` over the sample
list `is` adds, at each tensor position, the sum of the corresponding
summand entries. -/
theorem foldl_accumulate_spec (F : ℕ → ℕ → List ℝ) :
    ∀ (is : List ℕ) (init : List (List ℝ)),
      (∀ i l, l < init.length → (F i l).length = (init.getD l []).length) →
      (is.foldl (fun acc i => acc.mapIdx
          (fun l v => List.zipWith (fun a b => a + b) v (F i l))) init).length =
        init.length ∧
      ∀ l e, l < init.length → e < (init.getD l []).length →
        tget (is.foldl (fun acc i => acc.mapIdx
            (fun l v => List.zipWith (fun a b => a + b) v (F i l))) init) l e =
          tget init l e + (is.map (fun i => (F i l).getD e 0)).sum := by
  intro is
  induction is with
  | nil =>
    intro init hF
    exact ⟨rfl, fun l e _ _ => by simp⟩
  | cons i is ih =>
    intro init hF
    have hget2 : ∀ l, l < init.length →
        (init.mapIdx (fun l v => List.zipWith (fun a b => a + b) v (F i l))).getD l [] =
          List.zipWith (fun a b => a + b) (init.getD l []) (F i l) := by
      intro l hl
      exact getD_mapIdx [] [] init _ l hl
    have hlen2 : (init.mapIdx
        (fun l v => List.zipWith (fun a b => a + b) v (F i l))).length = init.length := by
      simp
    have hlen3 : ∀ l, l < init.length →
        ((init.mapIdx (fun l v => List.zipWith (fun a b => a + b) v (F i l))).getD l
          []).length = (init.getD l []).length := by
      intro l hl
      rw [hget2 l hl]
      simp [hF i l hl]
    have hF2 : ∀ j l, l < (init.mapIdx
        (fun l v => List.zipWith (fun a b => a + b) v (F i l))).length →
        (F j l).length = ((init.mapIdx
          (fun l v => List.zipWith (fun a b => a + b) v (F i l))).getD l []).length := by
      intro j l hl
      rw [hlen2] at hl
      rw [hlen3 l hl]
      exact hF j l hl
    obtain ⟨ihlen, ihval⟩ := ih
      (init.mapIdx (fun l v => List.zipWith (fun a b => a + b) v (F i l))) hF2
    constructor
    · rw [List.foldl_cons, ihlen, hlen2]
    · intro l e hl he
      rw [List.foldl_cons]
      have hval := ihval l e (by rw [hlen2]; exact hl) (by rw [hlen3 l hl]; exact he)
      rw [hval]
      have hzip : tget (init.mapIdx
          (fun l v => List.zipWith (fun a b => a + b) v (F i l))) l e =
          tget init l e + (F i l).getD e 0 := by
        simp only [tget]
        rw [hget2 l hl]
        have hzl : (List.zipWith (fun a b => a + b) (init.getD l [])
            (F i l)).length = (init.getD l []).length := by
          rw [List.length_zipWith, hF i l hl, min_self]
        rw [getD_zipWith _ _ _ _ (by rw [hzl]; exact he)]
      rw [hzip, List.map_cons, List.sum_cons]
      ring

theorem tget_neg (m : List (List ℝ)) (l e : ℕ) :
    tget (m.map (fun t => t.map (fun x => -x))) l e = -tget m l e := by
  by_cases hl : l < m.length
  · simp only [tget]
    rw [getD_map (fun t => t.map (fun x => -x)) [] [] m l hl]
    by_cases he : e < (m.getD l []).length
    · rw [getD_map (fun x => -x) 0 0 _ e he]
    · have h1 : ((m.getD l []).map (fun x => -x)).getD e 0 = 0 :=
        List.getD_eq_default _ _ (by simpa using Nat.le_of_not_lt he)
      have h2 : (m.getD l []).getD e 0 = 0 :=
        List.getD_eq_default _ _ (Nat.le_of_not_lt he)
      rw [h1, h2]
      simp
  · have h1 : (m.map (fun t => t.map (fun x => -x))).getD l [] = [] :=
      List.getD_eq_default _ _ (by simpa using Nat.le_of_not_lt hl)
    have h2 : m.getD l [] = ([] : List ℝ) :=
      List.getD_eq_default _ _ (Nat.le_of_not_lt hl)
    simp only [tget, h1, h2]
    simp

/-- C1: for every parameter-tensor element, the value accumulated by the
weight-gradient loop of `compute_gradients` equals
`(1/(N*sigma^2)) * Σ_i weight_i * sign_i * noise(seed_i)` with
`weight_i` the shaped return, `sign_i` the antithetic multiplier and
`noise(seed_i)` the deterministic per-sample noise of that tensor — and the
gradient stored on the parameter is the exact negative of this sum.  The
hypothesis `hlen` is the fixed-shape invariant: every noise draw has the
tensor's size. -/
theorem parameter_gradient_formula (ns : NoiseSetup) (agents : ℕ) (sigma : ℝ)
    (returns : List ℝ) (seeds : List ℕ) (is_anti_list : List Bool) (l e : ℕ)
    (hlen : ∀ seed l2, l2 < ns.sizes.length →
      (get_pertubation ns seed l2).length = ns.sizes.getD l2 0)
    (hl : l < ns.sizes.length) (he : e < ns.sizes.getD l 0) :
    tget (weightGradients ns agents sigma returns seeds is_anti_list) l e =
      1 / ((agents : ℝ) * sigma ^ 2) *
        ∑ i ∈ Finset.range agents, shapedReturn returns i * antiMult is_anti_list i *
          (get_pertubation ns (seeds.getD i 0) l).getD e 0 ∧
    tget (storedWeightGradients ns agents sigma returns seeds is_anti_list) l e =
      -(1 / ((agents : ℝ) * sigma ^ 2) *
        ∑ i ∈ Finset.range agents, shapedReturn returns i * antiMult is_anti_list i *
          (get_pertubation ns (seeds.getD i 0) l).getD e 0) := by
  have hinitlen : (ns.sizes.map (fun s => List.replicate s (0 : ℝ))).length =
      ns.sizes.length := by simp
  have hinitget : (ns.sizes.map (fun s => List.replicate s (0 : ℝ))).getD l [] =
      List.replicate (ns.sizes.getD l 0) 0 := getD_map _ 0 [] ns.sizes l hl
  have hF : ∀ i l2, l2 < (ns.sizes.map (fun s => List.replicate s (0 : ℝ))).length →
      (weightGradTerm ns agents sigma returns seeds is_anti_list i l2).length =
        ((ns.sizes.map (fun s => List.replicate s (0 : ℝ))).getD l2 []).length := by
    intro i l2 hl2
    rw [hinitlen] at hl2
    rw [getD_map _ 0 [] ns.sizes l2 hl2]
    simp [weightGradTerm, hlen _ l2 hl2]
  obtain ⟨_, hval⟩ := foldl_accumulate_spec
    (weightGradTerm ns agents sigma returns seeds is_anti_list) (List.range agents)
    (ns.sizes.map (fun s => List.replicate s (0 : ℝ))) hF
  have hmain : tget (weightGradients ns agents sigma returns seeds is_anti_list) l e =
      1 / ((agents : ℝ) * sigma ^ 2) *
        ∑ i ∈ Finset.range agents, shapedReturn returns i * antiMult is_anti_list i *
          (get_pertubation ns (seeds.getD i 0) l).getD e 0 := by
    have he2 : e < ((ns.sizes.map (fun s => List.replicate s (0 : ℝ))).getD l []).length := by
      rw [hinitget]; simpa using he
    have := hval l e (by rw [hinitlen]; exact hl) he2
    rw [weightGradients, this]
    have hzero : tget (ns.sizes.map (fun s => List.replicate s (0 : ℝ))) l e = 0 := by
      simp only [tget]
      rw [hinitget]
      exact getD_replicate _ _
    rw [hzero, zero_add, sum_map_range]
    rw [Finset.mul_sum]
    refine Finset.sum_congr rfl ?_
    intro i _
    have heps : e < (get_pertubation ns (seeds.getD i 0) l).length := by
      rw [hlen _ l hl]; exact he
    rw [weightGradTerm, getD_map _ 0 0 _ e heps]
  refine ⟨hmain, ?_⟩
  rw [storedWeightGradients, tget_neg, hmain]

/-- Witness for C1: one tensor of one element, two agents, unit noise. -/
theorem parameter_gradient_formula_witness :
    (∀ seed l2, l2 < (⟨fun _ _ => 1, [1], [], false⟩ : NoiseSetup).sizes.length →
      (get_pertubation ⟨fun _ _ => 1, [1], [], false⟩ seed l2).length =
        (⟨fun _ _ => 1, [1], [], false⟩ : NoiseSetup).sizes.getD l2 0) ∧
    0 < (⟨fun _ _ => 1, [1], [], false⟩ : NoiseSetup).sizes.length ∧
    0 < (⟨fun _ _ => 1, [1], [], false⟩ : NoiseSetup).sizes.getD 0 0 ∧
    (tget (weightGradients ⟨fun _ _ => 1, [1], [], false⟩ 2 1 [1, 2] [0, 0]
        [false, true]) 0 0 =
      1 / ((2 : ℝ) * 1 ^ 2) *
        ∑ i ∈ Finset.range 2, shapedReturn [1, 2] i * antiMult [false, true] i *
          (get_pertubation ⟨fun _ _ => 1, [1], [], false⟩ ([0, 0].getD i 0) 0).getD 0 0 ∧
     tget (storedWeightGradients ⟨fun _ _ => 1, [1], [], false⟩ 2 1 [1, 2] [0, 0]
        [false, true]) 0 0 =
      -(1 / ((2 : ℝ) * 1 ^ 2) *
        ∑ i ∈ Finset.range 2, shapedReturn [1, 2] i * antiMult [false, true] i *
          (get_pertubation ⟨fun _ _ => 1, [1], [], false⟩ ([0, 0].getD i 0) 0).getD 0 0)) := by
  have hlen : ∀ seed l2, l2 < (⟨fun _ _ => 1, [1], [], false⟩ : NoiseSetup).sizes.length →
      (get_pertubation ⟨fun _ _ => 1, [1], [], false⟩ seed l2).length =
        (⟨fun _ _ => 1, [1], [], false⟩ : NoiseSetup).sizes.getD l2 0 := by
    intro seed l2 hl2
    have : l2 = 0 := by simpa using hl2
    subst this
    simp [get_pertubation]
  exact ⟨hlen, by simp, by simp,
    parameter_gradient_formula ⟨fun _ _ => 1, [1], [], false⟩ 2 1 [1, 2] [0, 0]
      [false, true] 0 0 hlen (by simp) (by simp)⟩

/-! Claim C5 — the accumulated log-variance gradient. -/

theorem sum_getD_range (xs : List ℝ) :
    ∑ i ∈ Finset.range xs.length, xs.getD i 0 = xs.sum := by
  induction xs with
  | nil => simp
  | cons a xs ih =>
    rw [List.length_cons, Finset.sum_range_succ']
    simp only [List.getD_cons_succ, List.getD_cons_zero, List.sum_cons]
    rw [ih]
    ring

theorem fitness_shaping_length (returns : List ℝ) :
    (fitness_shaping returns).length = returns.length := by
  simp [fitness_shaping]

theorem shapedReturn_sum_zero (returns : List ℝ) (h2 : 2 ≤ returns.length) :
    ∑ i ∈ Finset.range returns.length, shapedReturn returns i = 0 := by
  have : ∑ i ∈ Finset.range returns.length, shapedReturn returns i =
      (fitness_shaping returns).sum := by
    rw [← fitness_shaping_length returns]
    exact sum_getD_range (fitness_shaping returns)
  rw [this]
  exact fitness_shaping_sum returns h2

/-- Closed form of the nested accumulation loop for the beta gradient: the
fold equals the double sum of its summands. -/
theorem betaGradient_closed (ns : NoiseSetup) (agents : ℕ) (beta : ℝ)
    (returns : List ℝ) (seeds : List ℕ) :
    betaGradient ns agents beta returns seeds =
      ∑ i ∈ Finset.range agents, ∑ l ∈ Finset.range ns.sizes.length,
        1 / ((agents : ℝ) * Real.exp beta) * shapedReturn returns i *
          (((get_pertubation ns (seeds.getD i 0) l).map (fun x => x ^ 2)).sum - 1) := by
  rw [betaGradient]
  rw [List.foldl_ext _ (fun acc i => acc +
    ((List.range ns.sizes.length).map (fun l =>
      1 / ((agents : ℝ) * Real.exp beta) * shapedReturn returns i *
        (((get_pertubation ns (seeds.getD i 0) l).map (fun x => x ^ 2)).sum - 1))).sum) 0
    (fun a i _ => foldl_add_eq _ _ a)]
  rw [foldl_add_eq, zero_add, sum_map_range]
  refine Finset.sum_congr rfl ?_
  intro i _
  rw [sum_map_range]

/-- C5: with sigma self-adaptation enabled, the beta gradient accumulated by
`compute_gradients` equals `(1/(N*E[sigma^2])) * Σ_i weight_i * (‖ε_i‖² − 1)`
with the `−1` applied once per sample to the squared norm of the sample's
full noise vector, and the stored beta gradient is its exact negative.  (In
the code the `−1` sits inside the loop over tensors; the two readings agree
because the shaped weights sum to zero, so any per-sample constant drops out
of the weighted sum.)  `E[sigma^2]` denotes `args.beta.exp()`. -/
theorem beta_gradient_formula (ns : NoiseSetup) (agents : ℕ) (beta : ℝ)
    (returns : List ℝ) (seeds : List ℕ)
    (hNret : returns.length = agents) (h2 : 2 ≤ agents) :
    betaGradient ns agents beta returns seeds =
      specBetaGradient ns agents beta returns seeds ∧
    storedBetaGradient ns agents beta returns seeds =
      -specBetaGradient ns agents beta returns seeds := by
  have hw : ∑ i ∈ Finset.range agents, shapedReturn returns i = 0 := by
    rw [← hNret]
    exact shapedReturn_sum_zero returns (by omega)
  have hmain : betaGradient ns agents beta returns seeds =
      specBetaGradient ns agents beta returns seeds := by
    rw [betaGradient_closed, specBetaGradient, sum_map_range, Finset.mul_sum]
    have hL : ∀ i, ∑ l ∈ Finset.range ns.sizes.length,
        1 / ((agents : ℝ) * Real.exp beta) * shapedReturn returns i *
          (((get_pertubation ns (seeds.getD i 0) l).map (fun x => x ^ 2)).sum - 1) =
        1 / ((agents : ℝ) * Real.exp beta) * shapedReturn returns i *
          ((∑ l ∈ Finset.range ns.sizes.length,
            ((get_pertubation ns (seeds.getD i 0) l).map (fun x => x ^ 2)).sum) -
            (ns.sizes.length : ℕ)) := by
      intro i
      rw [← Finset.mul_sum, Finset.sum_sub_distrib, Finset.sum_const, Finset.card_range,
        nsmul_eq_mul, mul_one]
    calc (∑ i ∈ Finset.range agents, ∑ l ∈ Finset.range ns.sizes.length,
            1 / ((agents : ℝ) * Real.exp beta) * shapedReturn returns i *
              (((get_pertubation ns (seeds.getD i 0) l).map (fun x => x ^ 2)).sum - 1))
        = ∑ i ∈ Finset.range agents,
            1 / ((agents : ℝ) * Real.exp beta) * shapedReturn returns i *
              ((∑ l ∈ Finset.range ns.sizes.length,
                ((get_pertubation ns (seeds.getD i 0) l).map (fun x => x ^ 2)).sum) -
                (ns.sizes.length : ℕ)) := Finset.sum_congr rfl (fun i _ => hL i)
      _ = ∑ i ∈ Finset.range agents,
            (1 / ((agents : ℝ) * Real.exp beta) * (shapedReturn returns i *
              (∑ l ∈ Finset.range ns.sizes.length,
                ((get_pertubation ns (seeds.getD i 0) l).map (fun x => x ^ 2)).sum)) -
             1 / ((agents : ℝ) * Real.exp beta) * ((ns.sizes.length : ℕ) *
              shapedReturn returns i)) := Finset.sum_congr rfl (fun i _ => by ring)
      _ = ∑ i ∈ Finset.range agents,
            1 / ((agents : ℝ) * Real.exp beta) * (shapedReturn returns i *
              (∑ l ∈ Finset.range ns.sizes.length,
                ((get_pertubation ns (seeds.getD i 0) l).map (fun x => x ^ 2)).sum)) -
          ∑ i ∈ Finset.range agents,
            1 / ((agents : ℝ) * Real.exp beta) * ((ns.sizes.length : ℕ) *
              shapedReturn returns i) := Finset.sum_sub_distrib
      _ = ∑ i ∈ Finset.range agents,
            1 / ((agents : ℝ) * Real.exp beta) * (shapedReturn returns i *
              (∑ l ∈ Finset.range ns.sizes.length,
                ((get_pertubation ns (seeds.getD i 0) l).map (fun x => x ^ 2)).sum)) := by
          rw [← Finset.mul_sum, ← Finset.mul_sum, ← Finset.mul_sum, hw]
          ring
      _ = ∑ i ∈ Finset.range agents,
            1 / ((agents : ℝ) * Real.exp beta) * (shapedReturn returns i *
              ((∑ l ∈ Finset.range ns.sizes.length,
                ((get_pertubation ns (seeds.getD i 0) l).map (fun x => x ^ 2)).sum) - 1)) := by
          rw [← sub_zero (∑ i ∈ Finset.range agents,
            1 / ((agents : ℝ) * Real.exp beta) * (shapedReturn returns i *
              (∑ l ∈ Finset.range ns.sizes.length,
                ((get_pertubation ns (seeds.getD i 0) l).map (fun x => x ^ 2)).sum)))]
          rw [show (0 : ℝ) = ∑ i ∈ Finset.range agents,
            1 / ((agents : ℝ) * Real.exp beta) * shapedReturn returns i from by
              rw [← Finset.mul_sum, hw, mul_zero]]
          rw [← Finset.sum_sub_distrib]
          exact Finset.sum_congr rfl (fun i _ => by ring)
      _ = ∑ i ∈ Finset.range agents,
            1 / ((agents : ℝ) * Real.exp beta) * (shapedReturn returns i *
              (((List.range ns.sizes.length).map (fun l =>
                ((get_pertubation ns (seeds.getD i 0) l).map (fun x => x ^ 2)).sum)).sum - 1)) :=
          Finset.sum_congr rfl (fun i _ => by rw [sum_map_range])
  exact ⟨hmain, by rw [storedBetaGradient, hmain]⟩

/-- Witness for C5: two one-element tensors, two agents, unit noise. -/
theorem beta_gradient_formula_witness :
    ([1, 2] : List ℝ).length = 2 ∧ 2 ≤ 2 ∧
    (betaGradient ⟨fun _ _ => 1, [1, 1], [], false⟩ 2 0 [1, 2] [0, 0] =
      specBetaGradient ⟨fun _ _ => 1, [1, 1], [], false⟩ 2 0 [1, 2] [0, 0] ∧
     storedBetaGradient ⟨fun _ _ => 1, [1, 1], [], false⟩ 2 0 [1, 2] [0, 0] =
      -specBetaGradient ⟨fun _ _ => 1, [1, 1], [], false⟩ 2 0 [1, 2] [0, 0]) :=
  ⟨by simp, by omega,
    beta_gradient_formula ⟨fun _ _ => 1, [1, 1], [], false⟩ 2 0 [1, 2] [0, 0]
      (by simp) (by omega)⟩

/-! Claim C8 — seed bookkeeping of the dispatch loop. -/

/-- Closed form of the dispatch loop: the workers receive, in dispatch order,
the pairs in reverse draw order, each drawn seed first with its negatively
perturbed model and flag `true`, then with its positively perturbed model and
flag `false`. -/
theorem generateDispatch_closed {M : Type} (draws : ℕ → ℕ) (pp : ℕ → M × M) :
    ∀ half, generateDispatch draws half pp =
      (List.range half).reverse.flatMap
        (fun j => [(draws j, true, (pp (draws j)).2), (draws j, false, (pp (draws j)).1)]) := by
  intro half
  induction half with
  | zero => rfl
  | succ h ih =>
    simp only [generateDispatch] at ih ⊢
    rw [List.range_succ, List.flatMap_append, List.flatMap_append,
      List.reverse_append, List.reverse_append, List.reverse_append]
    simp only [List.flatMap_cons, List.flatMap_nil, List.append_nil,
      List.reverse_cons, List.reverse_nil, List.nil_append, List.cons_append]
    simp only [popDispatch, Bool.not_true, Bool.not_false]
    rw [ih]

theorem count_flatMap_two {α : Type} [DecidableEq α] (f g : ℕ → α) (a : α) :
    ∀ js : List ℕ, (js.flatMap (fun j => [f j, g j])).count a =
      (js.map f).count a + (js.map g).count a := by
  intro js
  induction js with
  | nil => rfl
  | cons j js ih =>
    rw [List.flatMap_cons, List.count_append, List.map_cons, List.map_cons,
      List.count_cons, List.count_cons, ih]
    by_cases hf : f j = a
    · by_cases hg : g j = a
      · simp [List.count_cons, hf, hg]
        omega
      · simp [List.count_cons, hf, hg]
        omega
    · by_cases hg : g j = a
      · simp [List.count_cons, hf, hg]
        omega
      · simp [List.count_cons, hf, hg]

theorem count_map_pair_same (f : ℕ → ℕ) (b : Bool) (s : ℕ) :
    ∀ js : List ℕ, (js.map (fun j => (f j, b))).count (s, b) = (js.map f).count s := by
  intro js
  induction js with
  | nil => rfl
  | cons j js ih =>
    rw [List.map_cons, List.map_cons, List.count_cons, List.count_cons, ih]
    by_cases h : f j = s
    · simp [h]
    · simp [h]

theorem count_flatMap_pair_signs (f : ℕ → ℕ) (b1 b2 : Bool) (a : ℕ × Bool) :
    ∀ js : List ℕ, (js.flatMap (fun j => [(f j, b1), (f j, b2)])).count a =
      (js.map (fun j => (f j, b1))).count a + (js.map (fun j => (f j, b2))).count a := by
  intro js
  induction js with
  | nil => rfl
  | cons j js ih =>
    rw [List.flatMap_cons, List.count_append, List.map_cons, List.map_cons,
      List.count_cons, List.count_cons, ih]
    by_cases h1 : (f j, b1) = a
    · by_cases h2 : (f j, b2) = a
      · simp [List.count_cons, h1, h2]
        omega
      · simp [List.count_cons, h1, h2]
        omega
    · by_cases h2 : (f j, b2) = a
      · simp [List.count_cons, h1, h2]
        omega
      · simp [List.count_cons, h1, h2]

theorem count_map_pair_ne (f : ℕ → ℕ) (s : ℕ) (b c : Bool) (hbc : b ≠ c)
    (js : List ℕ) : (js.map (fun j => (f j, b))).count (s, c) = 0 := by
  rw [List.count_eq_zero]
  intro hmem
  obtain ⟨j, _, hj⟩ := List.mem_map.mp hmem
  exact hbc (congrArg Prod.snd hj)

/-- C8 amended: per generation exactly `N/2` seeds are drawn, each in
`[0, 2^30)`; the dispatched batch pairs every drawn seed once with the
positively perturbed model under flag `false` and once with the negatively
perturbed model under flag `true`; and provided the drawn seeds are pairwise
distinct, every dispatched seed value occurs exactly twice in the batch, once
with each flag.  (Distinctness is needed: the code draws with replacement,
so a repeated draw makes its seed value occur more than twice.) -/
theorem dispatch_antithetic_pairs {M : Type} (draws : ℕ → ℕ) (half : ℕ)
    (pp : ℕ → M × M)
    (hrange : ∀ j < half, draws j < 2 ^ 30)
    (hnodup : ((List.range half).map draws).Nodup) :
    ((List.range half).map draws).length = half ∧
    (∀ t ∈ generateDispatch draws half pp, t.1 < 2 ^ 30) ∧
    ∀ s ∈ (List.range half).map draws,
      ((generateDispatch draws half pp).map (fun t => t.1)).count s = 2 ∧
      ((generateDispatch draws half pp).map (fun t => (t.1, t.2.1))).count (s, false) = 1 ∧
      ((generateDispatch draws half pp).map (fun t => (t.1, t.2.1))).count (s, true) = 1 ∧
      (s, false, (pp s).1) ∈ generateDispatch draws half pp ∧
      (s, true, (pp s).2) ∈ generateDispatch draws half pp := by
  have hcount1 : ∀ s ∈ (List.range half).map draws,
      ((List.range half).reverse.map draws).count s = 1 := by
    intro s hs
    rw [List.map_reverse, List.count_reverse]
    exact List.count_eq_one_of_mem hnodup hs
  refine ⟨by simp, ?_, ?_⟩
  · intro t ht
    rw [generateDispatch_closed] at ht
    obtain ⟨j, hjm, hmem⟩ := List.mem_flatMap.mp ht
    have hjh : j < half := by
      rw [List.mem_reverse, List.mem_range] at hjm
      exact hjm
    simp only [List.mem_cons, List.mem_singleton] at hmem
    rcases hmem with rfl | rfl | h
    · exact hrange j hjh
    · exact hrange j hjh
    · cases h
  · intro s hs
    obtain ⟨j, hj, hjs⟩ := List.mem_map.mp hs
    have hproj1 : (generateDispatch draws half pp).map (fun t => t.1) =
        (List.range half).reverse.flatMap (fun j => [draws j, draws j]) := by
      rw [generateDispatch_closed, List.map_flatMap]
      rfl
    have hproj2 : (generateDispatch draws half pp).map (fun t => (t.1, t.2.1)) =
        (List.range half).reverse.flatMap
          (fun j => [(draws j, true), (draws j, false)]) := by
      rw [generateDispatch_closed, List.map_flatMap]
      rfl
    refine ⟨?_, ?_, ?_, ?_, ?_⟩
    · rw [hproj1, count_flatMap_two draws draws s, hcount1 s hs]
    · rw [hproj2, count_flatMap_pair_signs draws true false (s, false),
        count_map_pair_ne draws s true false (by simp),
        count_map_pair_same draws false s, hcount1 s hs]
    · rw [hproj2, count_flatMap_pair_signs draws true false (s, true),
        count_map_pair_ne draws s false true (by simp),
        count_map_pair_same draws true s, hcount1 s hs]
    · rw [generateDispatch_closed]
      refine List.mem_flatMap.mpr ⟨j, by simpa using hj, ?_⟩
      rw [hjs]
      simp
    · rw [generateDispatch_closed]
      refine List.mem_flatMap.mpr ⟨j, by simpa using hj, ?_⟩
      rw [hjs]
      simp

/-- Witness for C8: two distinct draws `0, 1`, trivial model payloads. -/
theorem dispatch_antithetic_pairs_witness :
    (∀ j < 2, (fun j => j) j < 2 ^ 30) ∧
    ((List.range 2).map (fun j => j)).Nodup ∧
    (((List.range 2).map (fun j => j)).length = 2 ∧
     (∀ t ∈ generateDispatch (fun j => j) 2 (fun _ => ((), ())), t.1 < 2 ^ 30) ∧
     ∀ s ∈ (List.range 2).map (fun j => j),
       ((generateDispatch (fun j => j) 2 (fun _ => ((), ()))).map
         (fun t => t.1)).count s = 2 ∧
       ((generateDispatch (fun j => j) 2 (fun _ => ((), ()))).map
         (fun t => (t.1, t.2.1))).count (s, false) = 1 ∧
       ((generateDispatch (fun j => j) 2 (fun _ => ((), ()))).map
         (fun t => (t.1, t.2.1))).count (s, true) = 1 ∧
       (s, false, ((fun (_ : ℕ) => ((), ())) s).1) ∈
         generateDispatch (fun j => j) 2 (fun _ => ((), ())) ∧
       (s, true, ((fun (_ : ℕ) => ((), ())) s).2) ∈
         generateDispatch (fun j => j) 2 (fun _ => ((), ()))) := by
  have hrange : ∀ j < 2, (fun j => j) j < 2 ^ 30 := by
    intro j hj
    show j < 2 ^ 30
    omega
  have hnodup : ((List.range 2).map (fun j => j)).Nodup := by decide
  exact ⟨hrange, hnodup,
    dispatch_antithetic_pairs (fun j => j) 2 (fun _ => ((), ())) hrange hnodup⟩

/-- C8 counterexample: seeds are drawn with replacement, so two equal draws
are a possible RNG outcome; the repeated seed value then occurs four times in
the dispatched batch, not exactly twice. -/
theorem dispatch_seed_collision_counterexample :
    (0 : ℕ) ∈ (List.range 2).map (fun _ => (0 : ℕ)) ∧
    ((generateDispatch (fun _ => 0) 2 (fun _ => ((), ()))).map
      (fun t => t.1)).count 0 = 4 ∧
    ¬ ((generateDispatch (fun _ => 0) 2 (fun _ => ((), ()))).map
      (fun t => t.1)).count 0 = 2 := by
  refine ⟨by simp, by rfl, by decide⟩

/-! Claim C7 — numerical range of the sensitivity map. -/

/-- C7: each tensor of the SensitivityMap is the square root of the
accumulated squared output gradients, normalized by its own maximum, followed
by the two numerical passes; afterwards every element is non-negative and
lies in `[1e-5, 1e5]` (elements that fell strictly below `1e-5` were replaced
by exactly `1`, elements above `1e5` were clipped to `1e5`). -/
theorem sensitivities_in_range (n_outputs : ℕ) (sizes : List ℕ)
    (g : ℕ → ℕ → ℕ → ℝ) (t : List ℝ) (v : ℝ)
    (ht : t ∈ compute_sensitivities n_outputs sizes g) (hv : v ∈ t) :
    0 ≤ v ∧ (1e-5 : ℝ) ≤ v ∧ v ≤ 1e5 := by
  simp only [compute_sensitivities] at ht
  obtain ⟨pid, _, rfl⟩ := List.mem_map.mp ht
  obtain ⟨y, hy, rfl⟩ := List.mem_map.mp hv
  obtain ⟨x, _, rfl⟩ := List.mem_map.mp hy
  have h5 : (1e-5 : ℝ) ≤ if x < 1e-5 then 1 else x := by
    by_cases h : x < 1e-5
    · rw [if_pos h]; norm_num
    · rw [if_neg h]; exact le_of_not_lt h
  by_cases hc : (if x < 1e-5 then (1 : ℝ) else x) > 1e5
  · rw [if_pos hc]
    norm_num
  · rw [if_neg hc]
    refine ⟨by linarith [h5], h5, le_of_not_lt hc⟩

/-- Witness for C7: one output unit, one one-element tensor, unit gradients;
the resulting sensitivity value is `1`. -/
theorem sensitivities_in_range_witness :
    [(1 : ℝ)] ∈ compute_sensitivities 1 [1] (fun _ _ _ => 1) ∧
    (1 : ℝ) ∈ [(1 : ℝ)] ∧
    (0 ≤ (1 : ℝ) ∧ (1e-5 : ℝ) ≤ 1 ∧ (1 : ℝ) ≤ 1e5) := by
  have hval : compute_sensitivities 1 [1] (fun _ _ _ => 1) = [[1]] := by
    simp [compute_sensitivities, npMax, Real.sqrt_one, List.range_succ]
    norm_num
  have ht : [(1 : ℝ)] ∈ compute_sensitivities 1 [1] (fun _ _ _ => 1) := by
    rw [hval]; simp
  have hv : (1 : ℝ) ∈ [(1 : ℝ)] := by simp
  exact ⟨ht, hv, sensitivities_in_range 1 [1] (fun _ _ _ => 1) [1] 1 ht hv⟩

end ESRL
